import Mathlib

/-!
Verification of the SpecGreedy-Repro densest-subgraph repository.

The Python sources are shallowly embedded over exact rationals:
* scipy sparse matrices become total functions `Fin n → Fin n → ℚ`;
* the lazy min-heap of `utils/greedy.py` / `Charikar.py` (entries become
  stale on decrement and are discarded at pop time) is embedded as direct
  selection of the member minimizing the pair (current degree, index) in
  lexicographic order, which is exactly the element the lazy heap yields,
  since every decrement pushes a fresh `(degree, node)` entry;
* Python's float `-inf` initial best score becomes `⊥ : WithBot ℚ`;
* the `while` loops are driven by a fuel argument that is always supplied
  large enough for the loop to reach its exit condition.
-/

namespace SpecGreedyRepro

/-- Dense rational matrix on `Fin n`, embedding the scipy sparse matrices. -/
abbrev Mat (n : ℕ) := Fin n → Fin n → ℚ

/-- `xᵀ M x` for the 0/1 indicator vector `x` of the vertex set `S`;
this is the value `x @ (M @ x)` computed in `utils/greedy.py`. -/
def quadSum {n : ℕ} (M : Mat n) (S : Finset (Fin n)) : ℚ :=
  ∑ u ∈ S, ∑ v ∈ S, M u v

/-- The vertex the lazy min-heap of `utils/greedy.py` (and `Charikar.py`)
delivers: the member of `S` with minimal current degree, ties broken by the
smaller index (heap entries are `(deg, node)` pairs ordered lexicographically,
and a fresh entry is pushed at every decrement). -/
def popMin {n : ℕ} (S : Finset (Fin n)) (d : Fin n → ℚ) (h : S.Nonempty) : Fin n :=
  let md := (S.image d).min' (h.image d)
  (S.filter (fun v => d v = md)).min' (by
    obtain ⟨v, hv, hdv⟩ := Finset.mem_image.mp ((S.image d).min'_mem (h.image d))
    exact ⟨v, Finset.mem_filter.mpr ⟨hv, hdv⟩⟩)

/-- Result of `greedy` in `utils/greedy.py`, instrumented with the list of
membership sets visited at each loop head plus the final empty set. -/
structure GreedyResult (n : ℕ) where
  bestScore : WithBot ℚ
  bestNodes : Finset (Fin n)
  trace : List (Finset (Fin n))
deriving DecidableEq

/-- The score-update step of `utils/greedy.py` lines 27-40: numerator
`xᵀPx`, denominator `xᵀQx` (the `Q is identity(n)` fast path of line 30
compares object identities of two distinct scipy objects and is never taken,
and in any case `xᵀIx = |S|`), score `0.5 * num / den`, recorded only when
`den > 0` and the score strictly improves. -/
def scoreUpdate {n : ℕ} (P Q : Mat n) (S : Finset (Fin n))
    (acc : WithBot ℚ × Finset (Fin n)) : WithBot ℚ × Finset (Fin n) :=
  if 0 < quadSum Q S ∧
      acc.1 < ((1/2 * quadSum P S / quadSum Q S : ℚ) : WithBot ℚ) then
    (((1/2 * quadSum P S / quadSum Q S : ℚ) : WithBot ℚ), S)
  else acc

/-- Main loop of `greedy` (`utils/greedy.py` lines 22-58): score the current
membership set, pop the minimum-degree member, remove it, and decrement the
degree of each remaining neighbour `u` by `A[v, u]`. -/
def greedyGo {n : ℕ} (A P Q : Mat n) :
    ℕ → Finset (Fin n) → (Fin n → ℚ) → WithBot ℚ × Finset (Fin n) → GreedyResult n
  | 0, S, _, acc => ⟨acc.1, acc.2, [S]⟩
  | fuel + 1, S, d, acc =>
    if h : S.Nonempty then
      let acc' := scoreUpdate P Q S acc
      let v := popMin S d h
      let S' := S.erase v
      let d' := fun u => if u ∈ S' then d u - A v u else d u
      let r := greedyGo A P Q fuel S' d' acc'
      ⟨r.bestScore, r.bestNodes, S :: r.trace⟩
    else ⟨acc.1, acc.2, [S]⟩

/-- `greedy(A_sparse, P, Q)` of `utils/greedy.py`: start from the full vertex
set with row-sum degrees, best score `-inf`, best set the full set. -/
def greedy {n : ℕ} (A P Q : Mat n) : GreedyResult n :=
  greedyGo A P Q (n + 1) Finset.univ (fun v => ∑ u, A v u) (⊥, Finset.univ)

/-- Result of `charikar` in `Charikar.py`, instrumented with the loop-head
scores and the removal order. -/
structure CharikarResult (n : ℕ) where
  bestScore : WithBot ℚ
  bestNodes : Finset (Fin n)
  scores : List ℚ
  removed : List (Fin n)
deriving DecidableEq

/-- Main loop of `charikar` (`Charikar.py` lines 31-58): score is the running
total edge weight divided by `|S|`; on removing `v`, every structural
neighbour `u` still in `S` (`v` itself is removed only after this update)
has its degree and the running weight decremented by `A[v, u]`. -/
def charikarGo {n : ℕ} (A : Mat n) :
    ℕ → Finset (Fin n) → (Fin n → ℚ) → ℚ → WithBot ℚ × Finset (Fin n) → CharikarResult n
  | 0, _, _, _, acc => ⟨acc.1, acc.2, [], []⟩
  | fuel + 1, S, d, W, acc =>
    if h : S.Nonempty then
      let sc := W / (S.card : ℚ)
      let acc' := if acc.1 < (sc : WithBot ℚ) then ((sc : WithBot ℚ), S) else acc
      let v := popMin S d h
      let d' := fun u => if u ∈ S ∧ A v u ≠ 0 then d u - A v u else d u
      let W' := W - ∑ u ∈ S.filter (fun u => A v u ≠ 0), A v u
      let r := charikarGo A fuel (S.erase v) d' W' acc'
      ⟨r.bestScore, r.bestNodes, sc :: r.scores, v :: r.removed⟩
    else ⟨acc.1, acc.2, [], []⟩

/-- `charikar` of `Charikar.py` on an already-built adjacency matrix: total
edge weight `A.sum() / 2`, start from the full vertex set. -/
def charikar {n : ℕ} (A : Mat n) : CharikarResult n :=
  charikarGo A (n + 1) Finset.univ (fun v => ∑ u, A v u) ((∑ v, ∑ u, (A v u : ℚ)) / 2)
    (⊥, Finset.univ)

/-- `Graph.to_adjacency_matrix` of `utils/graph.py`: for each edge `(u, v, w)`
add `w` at both `(u, v)` and `(v, u)`. -/
def adjOfEdges (n : ℕ) (edges : List (ℕ × ℕ × ℚ)) : Mat n :=
  fun u v => (edges.map (fun e =>
    (if e.1 = u.val ∧ e.2.1 = v.val then e.2.2 else 0) +
    (if e.1 = v.val ∧ e.2.1 = u.val then e.2.2 else 0))).sum

/-- The §8 concrete scenario graph: K4 on 0-3 plus the pendant edge (0,4). -/
def scenarioEdges : List (ℕ × ℕ × ℚ) :=
  [(0, 1, 1), (0, 2, 1), (0, 3, 1), (1, 2, 1), (1, 3, 1), (2, 3, 1), (0, 4, 1)]

lemma popMin_mem {n : ℕ} (S : Finset (Fin n)) (d : Fin n → ℚ) (h : S.Nonempty) :
    popMin S d h ∈ S := by
  have := (S.filter (fun v => d v = (S.image d).min' (h.image d))).min'_mem (by
    obtain ⟨v, hv, hdv⟩ := Finset.mem_image.mp ((S.image d).min'_mem (h.image d))
    exact ⟨v, Finset.mem_filter.mpr ⟨hv, hdv⟩⟩)
  exact (Finset.mem_filter.mp this).1

lemma scoreUpdate_eq_or {n : ℕ} (P Q : Mat n) (S : Finset (Fin n))
    (acc : WithBot ℚ × Finset (Fin n)) :
    scoreUpdate P Q S acc = acc ∨
      (0 < quadSum Q S ∧
        scoreUpdate P Q S acc =
          (((1/2 * quadSum P S / quadSum Q S : ℚ) : WithBot ℚ), S)) := by
  unfold scoreUpdate
  split
  · next hc => exact Or.inr ⟨hc.1, rfl⟩
  · exact Or.inl rfl

lemma scoreUpdate_zero_den {n : ℕ} (P Q : Mat n) (S : Finset (Fin n))
    (acc : WithBot ℚ × Finset (Fin n)) (h : quadSum Q S = 0) :
    scoreUpdate P Q S acc = acc := by
  unfold scoreUpdate
  rw [if_neg]
  intro hc
  exact absurd (h ▸ hc.1) (lt_irrefl 0)

lemma greedyGo_trace_head {n : ℕ} (A P Q : Mat n) (fuel : ℕ) (S : Finset (Fin n))
    (d : Fin n → ℚ) (acc : WithBot ℚ × Finset (Fin n)) :
    (greedyGo A P Q fuel S d acc).trace.head? = some S := by
  cases fuel with
  | zero => rfl
  | succ fuel =>
    unfold greedyGo
    split <;> rfl

lemma erase_card_lt_of_le {n : ℕ} {S : Finset (Fin n)} {v : Fin n} {fuel : ℕ}
    (hv : v ∈ S) (hle : S.card < fuel + 1) : (S.erase v).card < fuel := by
  have h1 : (S.erase v).card + 1 = S.card := Finset.card_erase_add_one hv
  omega

lemma getLast?_cons_of_getLast? {α : Type} {l : List α} {a b : α}
    (h : l.getLast? = some b) : (a :: l).getLast? = some b := by
  cases l with
  | nil => simp at h
  | cons c l => rw [List.getLast?_cons_cons]; exact h

lemma greedyGo_trace_last {n : ℕ} (A P Q : Mat n) (fuel : ℕ) (S : Finset (Fin n))
    (d : Fin n → ℚ) (acc : WithBot ℚ × Finset (Fin n)) (hfuel : S.card < fuel) :
    (greedyGo A P Q fuel S d acc).trace.getLast? = some ∅ := by
  induction fuel generalizing S d acc with
  | zero => omega
  | succ fuel ih =>
    unfold greedyGo
    dsimp only
    split
    · next h =>
      have hm := popMin_mem S d h
      exact getLast?_cons_of_getLast? (ih _ _ _ (erase_card_lt_of_le hm hfuel))
    · next h =>
      have : S = ∅ := Finset.not_nonempty_iff_eq_empty.mp h
      simp [this]

lemma greedyGo_chain {n : ℕ} (A P Q : Mat n) (fuel : ℕ) (S : Finset (Fin n))
    (d : Fin n → ℚ) (acc : WithBot ℚ × Finset (Fin n)) (hfuel : S.card < fuel) :
    List.Chain'
      (fun s t => ∃ v ∈ s, t = s.erase v ∧ t ⊂ s ∧ t.card + 1 = s.card)
      (greedyGo A P Q fuel S d acc).trace := by
  induction fuel generalizing S d acc with
  | zero => omega
  | succ fuel ih =>
    unfold greedyGo
    dsimp only
    split
    · next h =>
      have hm : popMin S d h ∈ S := popMin_mem S d h
      rw [List.chain'_cons']
      constructor
      · intro b hb
        rw [greedyGo_trace_head] at hb
        cases hb
        exact ⟨popMin S d h, hm, rfl, Finset.erase_ssubset hm,
          Finset.card_erase_add_one hm⟩
      · exact ih _ _ _ (erase_card_lt_of_le hm hfuel)
    · simp

lemma greedyGo_best_mem {n : ℕ} (A P Q : Mat n) (fuel : ℕ) (S : Finset (Fin n))
    (d : Fin n → ℚ) (acc : WithBot ℚ × Finset (Fin n)) :
    (greedyGo A P Q fuel S d acc).bestNodes ∈ (greedyGo A P Q fuel S d acc).trace ∨
      (greedyGo A P Q fuel S d acc).bestNodes = acc.2 := by
  induction fuel generalizing S d acc with
  | zero => exact Or.inr rfl
  | succ fuel ih =>
    unfold greedyGo
    dsimp only
    split
    · next h =>
      dsimp only
      rcases ih (S.erase (popMin S d h))
          (fun u => if u ∈ S.erase (popMin S d h) then d u - A (popMin S d h) u else d u)
          (scoreUpdate P Q S acc) with hmem | heq
      · exact Or.inl (List.mem_cons_of_mem _ hmem)
      · rcases scoreUpdate_eq_or P Q S acc with hup | ⟨_, hup⟩
        · rw [hup] at heq ⊢
          exact Or.inr heq
        · rw [hup] at heq
          rw [hup, heq]
          exact Or.inl (List.mem_cons_self _ _)
    · exact Or.inr rfl

lemma greedyGo_best_form {n : ℕ} (A P Q : Mat n) (fuel : ℕ) (S : Finset (Fin n))
    (d : Fin n → ℚ) (acc : WithBot ℚ × Finset (Fin n)) :
    (greedyGo A P Q fuel S d acc).bestScore = acc.1 ∨
      ∃ T ∈ (greedyGo A P Q fuel S d acc).trace, 0 < quadSum Q T ∧
        (greedyGo A P Q fuel S d acc).bestScore =
          ((1/2 * quadSum P T / quadSum Q T : ℚ) : WithBot ℚ) := by
  induction fuel generalizing S d acc with
  | zero => exact Or.inl rfl
  | succ fuel ih =>
    unfold greedyGo
    dsimp only
    split
    · next h =>
      dsimp only
      rcases ih (S.erase (popMin S d h))
          (fun u => if u ∈ S.erase (popMin S d h) then d u - A (popMin S d h) u else d u)
          (scoreUpdate P Q S acc) with heq | ⟨T, hT, hden, hval⟩
      · rcases scoreUpdate_eq_or P Q S acc with hup | ⟨hden, hup⟩
        · rw [hup] at heq ⊢
          exact Or.inl heq
        · rw [hup] at heq
          rw [hup]
          exact Or.inr ⟨S, List.mem_cons_self _ _, hden, heq⟩
      · exact Or.inr ⟨T, List.mem_cons_of_mem _ hT, hden, hval⟩
    · exact Or.inl rfl

/-- C5: the sequence of membership sets visited by the Greedy Peeling Engine
is strictly nested, each set obtained from the previous by removing exactly
one vertex, starting from the full vertex set and ending at the empty set,
and the returned best set is one of the sets in this sequence. -/
theorem claim_C5_peeling_monotone_coverage (n : ℕ) (A P Q : Mat n) :
    (greedy A P Q).trace.head? = some Finset.univ ∧
    (greedy A P Q).trace.getLast? = some ∅ ∧
    List.Chain' (fun s t => ∃ v ∈ s, t = s.erase v ∧ t ⊂ s ∧ t.card + 1 = s.card)
      (greedy A P Q).trace ∧
    (greedy A P Q).bestNodes ∈ (greedy A P Q).trace := by
  have hcard : (Finset.univ : Finset (Fin n)).card < n + 1 := by
    simp
  unfold greedy
  refine ⟨greedyGo_trace_head _ _ _ _ _ _ _,
    greedyGo_trace_last _ _ _ _ _ _ _ hcard,
    greedyGo_chain _ _ _ _ _ _ _ hcard, ?_⟩
  rcases greedyGo_best_mem A P Q (n + 1) Finset.univ (fun v => ∑ u, A v u)
      (⊥, Finset.univ) with hm | he
  · exact hm
  · have hh := greedyGo_trace_head A P Q (n + 1) Finset.univ (fun v => ∑ u, A v u)
      (⊥, Finset.univ)
    rw [he]
    cases htr : (greedyGo A P Q (n + 1) Finset.univ (fun v => ∑ u, A v u)
        (⊥, Finset.univ)).trace with
    | nil => rw [htr] at hh; simp at hh
    | cons a l =>
      rw [htr] at hh
      simp only [List.head?_cons, Option.some_inj] at hh
      rw [← hh]
      exact List.mem_cons_self _ _

/-- C9: score updates with a zero denominator `xᵀQx` are skipped, and the
final best score is either `-∞` (no update fired) or an actual rational
quotient over a visited set with strictly positive denominator — never the
result of a division by zero, never NaN or `+∞`. -/
theorem claim_C9_denominator_guard (n : ℕ) (A P Q : Mat n) :
    (∀ (S : Finset (Fin n)) (acc : WithBot ℚ × Finset (Fin n)),
        quadSum Q S = 0 → scoreUpdate P Q S acc = acc) ∧
    ((greedy A P Q).bestScore = ⊥ ∨
      ∃ S ∈ (greedy A P Q).trace, 0 < quadSum Q S ∧
        (greedy A P Q).bestScore =
          ((1/2 * quadSum P S / quadSum Q S : ℚ) : WithBot ℚ)) := by
  refine ⟨fun S acc h => scoreUpdate_zero_den P Q S acc h, ?_⟩
  unfold greedy
  rcases greedyGo_best_form A P Q (n + 1) Finset.univ (fun v => ∑ u, A v u)
      (⊥, Finset.univ) with h | h
  · exact Or.inl h
  · exact Or.inr h

/-- The all-zero 1×1 matrix, used as a concrete witness input. -/
def zeroMat1 : Mat 1 := fun _ _ => 0

theorem claim_C9_witness :
    (scoreUpdate zeroMat1 zeroMat1
        (Finset.univ : Finset (Fin 1)) (⊥, Finset.univ) = (⊥, Finset.univ)) ∧
    ((greedy zeroMat1 zeroMat1 zeroMat1).bestScore = ⊥ ∨
      ∃ S ∈ (greedy zeroMat1 zeroMat1 zeroMat1).trace,
        0 < quadSum zeroMat1 S ∧
        (greedy zeroMat1 zeroMat1 zeroMat1).bestScore =
          ((1/2 * quadSum zeroMat1 S / quadSum zeroMat1 S : ℚ) : WithBot ℚ)) :=
  ⟨(claim_C9_denominator_guard 1 zeroMat1 zeroMat1 zeroMat1).1
      Finset.univ (⊥, Finset.univ) (by decide!),
    (claim_C9_denominator_guard 1 zeroMat1 zeroMat1 zeroMat1).2⟩

/-- Diagonal degree matrix `D = diags(deg_vec)` built in `SpecGreedy.py`. -/
def degMat {n : ℕ} (A : Mat n) : Mat n :=
  fun i j => if i = j then ∑ u, A i u else 0

/-- Sparse identity `I_n = identity(n)` built in `SpecGreedy.py`. -/
def idMat (n : ℕ) : Mat n :=
  fun i j => if i = j then 1 else 0

/-- Weight diagonal `D_w = G.weight_diag()` from `utils/graph.py`. -/
def wDiag {n : ℕ} (w : Fin n → ℚ) : Mat n :=
  fun i j => if i = j then w i else 0

/-- The density-variant selector of `SpecGreedy.py` lines 24-59: lower-case
the method tag, branch on the recognized tags, fall back to `P = A, Q = I`
with a warning (third component `true`) on anything else. -/
def selectPQ {n : ℕ} (method : String) (A : Mat n) (w : Fin n → ℚ) :
    Mat n × Mat n × Bool :=
  if method.toLower = "minquotientcut" then
    (fun i j => A i j - degMat A i j, idMat n, false)
  else if method.toLower = "charikar" then (A, idMat n, false)
  else if method.toLower = "fraudar" then
    (fun i j => A i j + 2 * wDiag w i j, idMat n, false)
  else if method.toLower = "sparsecutds" then
    (fun i j => A i j - (2 * 1) / (2 * 1 + 1) * degMat A i j, idMat n, false)
  else if method.toLower = "risk-averse ds" then
    (fun i j => max (A i j) 0 + 1 * idMat n i j,
      fun i j => max (-A i j) 0 + 1 * idMat n i j, false)
  else (A, idMat n, true)

/-- C1 counterexample: the spec-level name `weighted` is not a tag the code
recognizes — the selector warns and falls back to `P = A`, which differs
from the variants-table value `A + 2·Dw` already at entry (0,0) on a
one-vertex graph with node weight 1. -/
theorem claim_C1_counterexample :
    (selectPQ "weighted" zeroMat1 (fun _ => 1)).2.2 = true ∧
    (selectPQ "weighted" zeroMat1 (fun _ => 1)).1 (0 : Fin 1) (0 : Fin 1) ≠
      zeroMat1 (0 : Fin 1) (0 : Fin 1) +
        2 * wDiag (fun _ => (1 : ℚ)) (0 : Fin 1) (0 : Fin 1) := by
  constructor
  · decide!
  · decide!

/-- C1 amended: the five method names the code actually recognizes
(case-insensitively) are `charikar`, `minquotientcut`, `fraudar`,
`sparsecutds`, `risk-averse ds`; for each of these the selector returns the
variants-table pair — in particular `fraudar` (the weighted/fraud variant)
yields `P = A + 2·Dw, Q = I` — and never warns or falls back. -/
theorem claim_C1_selector_table (n : ℕ) (s : String) (A : Mat n) (w : Fin n → ℚ) :
    (s.toLower = "charikar" → selectPQ s A w = (A, idMat n, false)) ∧
    (s.toLower = "minquotientcut" →
      selectPQ s A w = (fun i j => A i j - degMat A i j, idMat n, false)) ∧
    (s.toLower = "fraudar" →
      selectPQ s A w = (fun i j => A i j + 2 * wDiag w i j, idMat n, false)) ∧
    (s.toLower = "sparsecutds" →
      selectPQ s A w =
        (fun i j => A i j - (2 * 1) / (2 * 1 + 1) * degMat A i j, idMat n, false)) ∧
    (s.toLower = "risk-averse ds" →
      selectPQ s A w = (fun i j => max (A i j) 0 + 1 * idMat n i j,
        fun i j => max (-A i j) 0 + 1 * idMat n i j, false)) := by
  refine ⟨fun h => ?_, fun h => ?_, fun h => ?_, fun h => ?_, fun h => ?_⟩ <;>
    · unfold selectPQ
      rw [h]
      rfl

/-- The all-three 1×1 matrix, used as a concrete witness input. -/
def threeMat1 : Mat 1 := fun _ _ => 3

theorem claim_C1_selector_table_witness :
    selectPQ "FRAUDAR" threeMat1 (fun _ => 5) =
      (fun i j => threeMat1 i j + 2 * wDiag (fun _ => (5 : ℚ)) i j, idMat 1, false) :=
  (claim_C1_selector_table 1 "FRAUDAR" threeMat1 (fun _ => 5)).2.2.1 (by decide!)

instance {ε α : Type} [DecidableEq ε] [DecidableEq α] : DecidableEq (Except ε α) :=
  fun a b =>
    match a, b with
    | Except.ok x, Except.ok y =>
      if h : x = y then Decidable.isTrue (congrArg Except.ok h)
      else Decidable.isFalse (fun hc => h (Except.ok.inj hc))
    | Except.error x, Except.error y =>
      if h : x = y then Decidable.isTrue (congrArg Except.error h)
      else Decidable.isFalse (fun hc => h (Except.error.inj hc))
    | Except.ok _, Except.error _ => Decidable.isFalse (fun hc => Except.noConfusion hc)
    | Except.error _, Except.ok _ => Decidable.isFalse (fun hc => Except.noConfusion hc)

/-- The graph record filled by `Graph.load_from_file` of `utils/graph.py`. -/
structure GraphData where
  n : ℤ
  m : ℤ
  node_weights : List ℚ
  edges : List (ℤ × ℤ × ℚ)
deriving DecidableEq

/-- Python `int(tok)` on a numeric token: succeeds exactly on integers. -/
def toIntTok (q : ℚ) : Except String ℤ :=
  if q.den = 1 then Except.ok q.num else Except.error "ValueError: invalid int literal"

/-- The `for _ in range(self.m)` edge-reading loop of `utils/graph.py`
lines 26-28: each of the `m` reads must yield a line of exactly three
tokens (`u, v, w = f.readline().split()` raises otherwise, in particular on
the empty token list `readline` yields at end of file), with integral
`u`, `v`.  No range check is performed on `u`, `v`. -/
def readEdges : ℕ → List (List ℚ) → Except String (List (ℤ × ℤ × ℚ))
  | 0, _ => Except.ok []
  | _ + 1, [] => Except.error "ValueError: not enough values to unpack"
  | k + 1, l :: rest =>
    match l with
    | [u, v, w] => do
      let ui ← toIntTok u
      let vi ← toIntTok v
      let es ← readEdges k rest
      Except.ok ((ui, vi, w) :: es)
    | _ => Except.error "ValueError: unpack"

/-- `Graph.load_from_file` of `utils/graph.py`, with the file abstracted to
its whitespace-split numeric tokens per line (`readline()` past end of file
yields the empty token list).  Line 1 must be exactly two integers `n m`;
line 2 gives the node weights, stored 1-based behind a dummy `0.0`, and the
count is checked against `n`; then `m` edge lines are read. -/
def loadFromFile (lines : List (List ℚ)) : Except String GraphData :=
  match lines with
  | [] => Except.error "ValueError: not enough values to unpack"
  | l1 :: rest =>
    match l1 with
    | [a, b] => do
      let n ← toIntTok a
      let m ← toIntTok b
      let node_weights := 0 :: rest.headD []
      if (node_weights.length : ℤ) ≠ n + 1 then
        Except.error "ValueError: weight count mismatch"
      else do
        let es ← readEdges (max m 0).toNat (rest.drop 1)
        Except.ok ⟨n, m, node_weights, es⟩
    | _ => Except.error "ValueError: not enough values to unpack"

/-- C3 counterexample: the loader accepts an edge whose endpoint `5` is
outside `[0, n)` for `n = 2` — loading succeeds instead of failing. -/
theorem claim_C3_counterexample :
    loadFromFile [[2, 1], [1, 1], [5, 0, 1]] =
      Except.ok ⟨2, 1, [0, 1, 1], [(5, 0, 1)]⟩ ∧
    ¬((5 : ℤ) < 2) := by
  constructor
  · decide!
  · decide!

lemma readEdges_short (k : ℕ) (ls : List (List ℚ)) (h : ls.length < k) :
    (readEdges k ls).isOk = false := by
  induction k generalizing ls with
  | zero => omega
  | succ k ih =>
    cases ls with
    | nil => rfl
    | cons l rest =>
      simp only [List.length_cons] at h
      unfold readEdges
      match l with
      | [] => rfl
      | [_] => rfl
      | [_, _] => rfl
      | [u, v, w] =>
        dsimp only
        cases hu : toIntTok u with
        | error e => rfl
        | ok ui =>
          cases hv : toIntTok v with
          | error e => rfl
          | ok vi =>
            have := ih rest (by omega)
            cases hre : readEdges k rest with
            | error e => simp [bind, Except.bind, hu, hv, hre, Except.isOk, Except.toBool]
            | ok es => rw [hre] at this; simp [Except.isOk, Except.toBool] at this
      | _ :: _ :: _ :: _ :: _ => rfl

/-- C3 amended: the loader does fail when the declared node-weight count
differs from `n`, and when fewer than `m` edge lines are present; it
performs no range check on edge endpoints (see the counterexample, where an
endpoint `≥ n` is accepted). -/
theorem claim_C3_loader_checks (n m : ℤ) (l2 : List ℚ) (rest : List (List ℚ)) :
    ((l2.length : ℤ) ≠ n →
      (loadFromFile ([(n : ℚ), (m : ℚ)] :: l2 :: rest)).isOk = false) ∧
    ((l2.length : ℤ) = n → (rest.length : ℤ) < m →
      (loadFromFile ([(n : ℚ), (m : ℚ)] :: l2 :: rest)).isOk = false) := by
  have hn : toIntTok (n : ℚ) = Except.ok n := by
    simp [toIntTok]
  have hm : toIntTok (m : ℚ) = Except.ok m := by
    simp [toIntTok]
  constructor
  · intro hne
    unfold loadFromFile
    simp only [hn, hm, bind, Except.bind, List.headD_cons]
    rw [if_pos]
    · rfl
    · simp only [List.length_cons]
      push_cast
      omega
  · intro heq hlt
    unfold loadFromFile
    simp only [hn, hm, bind, Except.bind, List.headD_cons]
    rw [if_neg]
    · have hshort : (rest.length : ℤ) < max m 0 := by omega
      have : ((l2 :: rest).drop 1).length < (max m 0).toNat := by
        simp only [List.drop_succ_cons, List.drop_zero]
        omega
      have hre := readEdges_short (max m 0).toNat ((l2 :: rest).drop 1) this
      cases hr : readEdges (max m 0).toNat ((l2 :: rest).drop 1) with
      | error e => simp [hr, bind, Except.bind, Except.isOk, Except.toBool]
      | ok es => rw [hr] at hre; simp [Except.isOk, Except.toBool] at hre
    · simp only [List.length_cons]
      push_cast
      omega

theorem claim_C3_loader_checks_witness :
    (loadFromFile [[((2 : ℤ) : ℚ), ((0 : ℤ) : ℚ)], [1]]).isOk = false ∧
    (loadFromFile [[((2 : ℤ) : ℚ), ((2 : ℤ) : ℚ)], [1, 1], [0, 1, 1]]).isOk = false :=
  ⟨(claim_C3_loader_checks 2 0 [1] []).1 (by decide!),
    (claim_C3_loader_checks 2 2 [1, 1] [[0, 1, 1]]).2 (by decide!) (by decide!)⟩

/-- Node type of the flow network of `Flow.py`: the integer vertices plus the
string nodes `"s"` and `"t"`. -/
inductive FNode
  | vert (i : ℕ)
  | src
  | sink
deriving DecidableEq

/-- The node set of the networkx `DiGraph` after `build_flow_network`
(`Flow.py` lines 20-37): `range(n)`, `s`, `t`, plus any endpoint nodes
implicitly added by `add_edge`. -/
def flowNodes (n : ℕ) (edges : List (ℕ × ℕ)) : Finset FNode :=
  (Finset.range n).image FNode.vert ∪ {FNode.src, FNode.sink} ∪
    edges.foldr (fun e acc => insert (FNode.vert e.1) (insert (FNode.vert e.2) acc)) ∅

/-- Arc capacities set by `build_flow_network`: each undirected edge `(u,v)`
contributes unit-capacity arcs `u→v` and `v→u`; `s→u` has capacity `m` and
`u→t` capacity `max(0, m + 2·λ − deg u)` for each `u < n`; absent arcs have
capacity 0. -/
def flowCap (n m : ℕ) (edges : List (ℕ × ℕ)) (lam : ℚ) (deg : ℕ → ℚ) :
    FNode → FNode → ℚ
  | FNode.vert u, FNode.vert v => if (u, v) ∈ edges ∨ (v, u) ∈ edges then 1 else 0
  | FNode.src, FNode.vert u => if u < n then (m : ℚ) else 0
  | FNode.vert u, FNode.sink => if u < n then max 0 ((m : ℚ) + 2 * lam - deg u) else 0
  | _, _ => 0

/-- Which side of the cut a node lies on, for a candidate source side
`{s} ∪ S`. -/
def inSourceSide (S : Finset ℕ) : FNode → Bool
  | FNode.vert u => u ∈ S
  | FNode.src => true
  | FNode.sink => false

/-- Total capacity crossing the partition `({s} ∪ S, rest)`. -/
def cutValue (n m : ℕ) (edges : List (ℕ × ℕ)) (lam : ℚ) (deg : ℕ → ℚ)
    (S : Finset ℕ) : ℚ :=
  ∑ a ∈ flowNodes n edges, ∑ b ∈ flowNodes n edges,
    if inSourceSide S a ∧ ¬ inSourceSide S b then flowCap n m edges lam deg a b else 0

/-- Modelled from the external primitive `nx.minimum_cut` (with the Dinic
flow function): it returns the partition whose source side is the set of
nodes reachable from `s` in the residual network of a maximum flow, i.e. the
unique inclusion-minimal minimum cut — the intersection of all source sides
of minimum cut value.  Returned here already with `s` removed
(`V1 = S_side - {s}` of `Flow.py` line 57). -/
def minCutSourceSide (n m : ℕ) (edges : List (ℕ × ℕ)) (lam : ℚ) (deg : ℕ → ℚ) :
    Finset ℕ :=
  ((Finset.range n).powerset.filter
      (fun S => ∀ T ∈ (Finset.range n).powerset,
        cutValue n m edges lam deg S ≤ cutValue n m edges lam deg T)).inf' (by
    obtain ⟨S, hS, hmin⟩ := Finset.exists_min_image (Finset.range n).powerset
      (cutValue n m edges lam deg) ⟨∅, Finset.empty_mem_powerset _⟩
    exact ⟨S, Finset.mem_filter.mpr ⟨hS, hmin⟩⟩) id

/-- The binary-search loop of `densest_subgraph_exact` (`Flow.py` lines
50-62): while `r − l > ε`, cut at `λ = (l+r)/2`; a non-empty source side
`V1` raises `l` and becomes the recorded `best_S`, otherwise `r` drops. -/
def flowLoopGo (n m : ℕ) (edges : List (ℕ × ℕ)) (deg : ℕ → ℚ) (eps : ℚ) :
    ℕ → ℚ → ℚ → Finset ℕ → ℚ × ℚ × Finset ℕ
  | 0, l, r, best => (l, r, best)
  | fuel + 1, l, r, best =>
    if eps < r - l then
      if (minCutSourceSide n m edges ((l + r) / 2) deg).Nonempty then
        flowLoopGo n m edges deg eps fuel ((l + r) / 2) r
          (minCutSourceSide n m edges ((l + r) / 2) deg)
      else flowLoopGo n m edges deg eps fuel l ((l + r) / 2) best
    else (l, r, best)

/-- Per-vertex degree as accumulated by `densest_subgraph_exact` lines 42-45
(each endpoint of each edge counts 1, weights ignored). -/
def flowDeg (edges : List (ℕ × ℕ)) : ℕ → ℚ :=
  fun u => ((edges.countP (fun e => e.1 = u) + edges.countP (fun e => e.2 = u) : ℕ) : ℚ)

/-- `densest_subgraph_exact` of `Flow.py`: binary search `λ ∈ [0, m]` down to
width `ε`, then recount the exact density of `best_S`; the final
`sub_edges / len(best_S)` raises `ZeroDivisionError` when `best_S` is empty
(which happens for `n = 0`, where `best_S` starts and stays empty). -/
def densest_subgraph_exact (n m : ℕ) (edges : List (ℕ × ℕ)) (eps : ℚ) :
    Except String (ℚ × Finset ℕ) :=
  match flowLoopGo n m edges (flowDeg edges) eps (((m : ℚ) / eps).ceil.toNat + 1)
      0 (m : ℚ) (Finset.range n) with
  | (_, _, bestS) =>
    if bestS.card = 0 then Except.error "ZeroDivisionError"
    else
      Except.ok
        (((edges.countP (fun e => e.1 ∈ bestS ∧ e.2 ∈ bestS) : ℕ) : ℚ) /
          (bestS.card : ℚ), bestS)

lemma mem_edgeNodes_iff (edges : List (ℕ × ℕ)) (x : FNode) :
    (x ∈ edges.foldr (fun e acc => insert (FNode.vert e.1) (insert (FNode.vert e.2) acc))
        (∅ : Finset FNode)) ↔
      ∃ e ∈ edges, x = FNode.vert e.1 ∨ x = FNode.vert e.2 := by
  induction edges with
  | nil => simp
  | cons e es ih =>
    simp only [List.foldr_cons, Finset.mem_insert, ih, List.mem_cons]
    constructor
    · rintro (h | h | ⟨f, hf, hc⟩)
      · exact ⟨e, Or.inl rfl, Or.inl h⟩
      · exact ⟨e, Or.inl rfl, Or.inr h⟩
      · exact ⟨f, Or.inr hf, hc⟩
    · rintro ⟨f, hf | hf, hc⟩
      · cases hf
        rcases hc with h | h
        · exact Or.inl h
        · exact Or.inr (Or.inl h)
      · exact Or.inr (Or.inr ⟨f, hf, hc⟩)

/-- C7: for a graph respecting the data-model invariant (all endpoints in
`[0, n)`), the flow network built for a binary-search step has node set
`{0..n-1} ∪ {s, t}`, carries the two unit arcs of every undirected edge, the
`m`-capacity source arcs and the `max(0, m + 2λ − deg v)` sink arcs, and
every capacity in the network is non-negative. -/
theorem claim_C7_flow_network (n m : ℕ) (edges : List (ℕ × ℕ)) (lam : ℚ)
    (deg : ℕ → ℚ) (hvalid : ∀ e ∈ edges, e.1 < n ∧ e.2 < n) :
    flowNodes n edges =
      (Finset.range n).image FNode.vert ∪ {FNode.src, FNode.sink} ∧
    (∀ e ∈ edges,
      flowCap n m edges lam deg (FNode.vert e.1) (FNode.vert e.2) = 1 ∧
      flowCap n m edges lam deg (FNode.vert e.2) (FNode.vert e.1) = 1) ∧
    (∀ u, u < n →
      flowCap n m edges lam deg FNode.src (FNode.vert u) = (m : ℚ) ∧
      flowCap n m edges lam deg (FNode.vert u) FNode.sink =
        max 0 ((m : ℚ) + 2 * lam - deg u)) ∧
    (∀ a b, 0 ≤ flowCap n m edges lam deg a b) := by
  refine ⟨?_, ?_, ?_, ?_⟩
  · unfold flowNodes
    rw [Finset.union_eq_left.mpr]
    intro x hx
    rcases (mem_edgeNodes_iff edges x).mp hx with ⟨e, he, hc⟩
    rcases hvalid e he with ⟨h1, h2⟩
    rcases hc with h | h <;> subst h
    · exact Finset.mem_union_left _
        (Finset.mem_image_of_mem _ (Finset.mem_range.mpr h1))
    · exact Finset.mem_union_left _
        (Finset.mem_image_of_mem _ (Finset.mem_range.mpr h2))
  · intro e he
    constructor
    · simp only [flowCap]
      rw [if_pos (Or.inl he)]
    · simp only [flowCap]
      rw [if_pos (Or.inr he)]
  · intro u hu
    constructor
    · simp only [flowCap]
      rw [if_pos hu]
    · simp only [flowCap]
      rw [if_pos hu]
  · intro a b
    cases a <;> cases b <;> simp only [flowCap] <;> (try norm_num) <;>
      (try (split <;> norm_num [le_max_iff]))

theorem claim_C7_flow_network_witness :
    flowNodes 2 [(0, 1)] =
      (Finset.range 2).image FNode.vert ∪ {FNode.src, FNode.sink} ∧
    (∀ e ∈ [((0 : ℕ), (1 : ℕ))],
      flowCap 2 1 [(0, 1)] (1/2) (flowDeg [(0, 1)]) (FNode.vert e.1) (FNode.vert e.2) = 1 ∧
      flowCap 2 1 [(0, 1)] (1/2) (flowDeg [(0, 1)]) (FNode.vert e.2) (FNode.vert e.1) = 1) ∧
    (∀ u, u < 2 →
      flowCap 2 1 [(0, 1)] (1/2) (flowDeg [(0, 1)]) FNode.src (FNode.vert u) = ((1 : ℕ) : ℚ) ∧
      flowCap 2 1 [(0, 1)] (1/2) (flowDeg [(0, 1)]) (FNode.vert u) FNode.sink =
        max 0 (((1 : ℕ) : ℚ) + 2 * (1/2) - flowDeg [(0, 1)] u)) ∧
    (∀ a b, 0 ≤ flowCap 2 1 [(0, 1)] (1/2) (flowDeg [(0, 1)]) a b) :=
  claim_C7_flow_network 2 1 [(0, 1)] (1/2) (flowDeg [(0, 1)]) (by decide!)

/-- C8: the claim's guard does not exist in the code — on the empty graph
(`n = 0, m = 0`) the loop never runs, `best_S` stays the empty
`set(range(0))`, and the final recount divides by `len(best_S) = 0`,
raising `ZeroDivisionError` instead of returning a density. -/
theorem claim_C8_empty_graph_divzero :
    densest_subgraph_exact 0 0 [] (1/10) = Except.error "ZeroDivisionError" := by
  decide!

/-- Edge list of the §8 scenario graph as read by `Flow.py` (weights are
dropped by `read_graph`). -/
def scenarioPairs : List (ℕ × ℕ) :=
  [(0, 1), (0, 2), (0, 3), (1, 2), (1, 3), (2, 3), (0, 4)]

/-- C6: on K4 plus the pendant edge (0,4), the plain-density peeling engine
scores `7/5` first, removes vertex 4 first, then scores `6/4 = 3/2`, and
returns best score `3/2` on `{0,1,2,3}`; the Parametric Flow Engine with
`ε = 0.1` returns density `3/2` over the same vertex set. -/
theorem claim_C6_concrete_scenario :
    (charikar (adjOfEdges 5 scenarioEdges)).scores.take 2 = [7/5, 3/2] ∧
    (charikar (adjOfEdges 5 scenarioEdges)).removed.head? = some 4 ∧
    (charikar (adjOfEdges 5 scenarioEdges)).bestScore = ((3/2 : ℚ) : WithBot ℚ) ∧
    (charikar (adjOfEdges 5 scenarioEdges)).bestNodes = {0, 1, 2, 3} ∧
    densest_subgraph_exact 5 7 scenarioPairs (1/10) =
      Except.ok (3/2, {0, 1, 2, 3}) := by
  decide!

/-- Candidate index set `S_r` of `SpecGreedy.py` lines 79-90: indices whose
`u`- or `v`-component exceeds the threshold `1/√|L|` with `|L| = n`
(`val > 1/√n ⟺ val > 0 ∧ n·val² > 1`, stated exactly over ℚ), merged and
sorted. -/
def specCandidates (n : ℕ) (uvec vvec : Fin n → ℚ) : List (Fin n) :=
  (List.finRange n).filter (fun idx =>
    (0 < uvec idx ∧ 1 < (n : ℚ) * uvec idx ^ 2) ∨
    (0 < vvec idx ∧ 1 < (n : ℚ) * vvec idx ^ 2))

/-- Induced sub-matrix `M[S_r, :][:, S_r]` re-indexed locally. -/
def subMat {n : ℕ} (M : Mat n) (l : List (Fin n)) : Mat l.length :=
  fun i j => M (l.get i) (l.get j)

/-- The greedy score of the candidate subgraph of iteration `i`
(`score, node_set = greedy(A_sub, P_sub, Q_sub)` in `SpecGreedy.py`). -/
def candScore {n : ℕ} (A P Q : Mat n) (U V : ℕ → Fin n → ℚ) (i : ℕ) : WithBot ℚ :=
  (greedy (subMat A (specCandidates n (U i) (V i)))
    (subMat P (specCandidates n (U i) (V i)))
    (subMat Q (specCandidates n (U i) (V i)))).bestScore

/-- The candidate node set of iteration `i`, in the LOCAL indexing of the
induced subgraph (the code stores `S = node_set` without mapping back),
as a sorted list of naturals like `list(nodes)`. -/
def candNodes {n : ℕ} (A P Q : Mat n) (U V : ℕ → Fin n → ℚ) (i : ℕ) : List ℕ :=
  ((greedy (subMat A (specCandidates n (U i) (V i)))
    (subMat P (specCandidates n (U i) (V i)))
    (subMat Q (specCandidates n (U i) (V i)))).bestNodes.sort (· ≤ ·)).map Fin.val

/-- One iteration of the `for i in range(0, k)` loop of `SpecGreedy.py`
lines 78-112: update `(S, best_score)` when `best_score < score`. -/
def specStep {n : ℕ} (A P Q : Mat n) (U V : ℕ → Fin n → ℚ) (i : ℕ)
    (S : List ℕ) (best : ℚ) : List ℕ × ℚ :=
  if (best : WithBot ℚ) < candScore A P Q U V i then
    (candNodes A P Q U V i, (candScore A P Q U V i).unbot' best)
  else (S, best)

/-- The candidate loop of `SpecGreedy.py` with its early-termination break
(lines 114-116): `rem` counts the remaining iterations down from `k`. -/
def specGoEarly {n : ℕ} (A P Q : Mat n) (U V : ℕ → Fin n → ℚ) (SIGMA : ℕ → ℚ)
    (k : ℕ) : ℕ → ℕ → List ℕ → ℚ → List ℕ × ℚ
  | 0, _, S, best => (S, best)
  | rem + 1, i, S, best =>
    if i + 1 < k ∧ SIGMA (i + 1) ≤ (specStep A P Q U V i S best).2 then
      specStep A P Q U V i S best
    else
      specGoEarly A P Q U V SIGMA k rem (i + 1) (specStep A P Q U V i S best).1
        (specStep A P Q U V i S best).2

/-- The same candidate loop run to completion, without the early break. -/
def specGoFull {n : ℕ} (A P Q : Mat n) (U V : ℕ → Fin n → ℚ) (k : ℕ) :
    ℕ → ℕ → List ℕ → ℚ → List ℕ × ℚ
  | 0, _, S, best => (S, best)
  | rem + 1, i, S, best =>
    specGoFull A P Q U V k rem (i + 1) (specStep A P Q U V i S best).1
      (specStep A P Q U V i S best).2

/-- `SpecGreedy(graph, k, method)` of `SpecGreedy.py` after `(P, Q)` and the
singular triplets `U, SIGMA, V` (external `svds` output, descending order)
are in hand: run the candidate loop from `S = [], best_score = 0.0` and
`return S, best_score` — the vertex set FIRST, the score SECOND. -/
def SpecGreedy {n : ℕ} (A P Q : Mat n) (U V : ℕ → Fin n → ℚ) (SIGMA : ℕ → ℚ)
    (k : ℕ) : List ℕ × ℚ :=
  specGoEarly A P Q U V SIGMA k k 0 [] 0

/-- The full-loop (no early break) variant of `SpecGreedy`. -/
def SpecGreedyFull {n : ℕ} (A P Q : Mat n) (U V : ℕ → Fin n → ℚ) (k : ℕ) :
    List ℕ × ℚ :=
  specGoFull A P Q U V k k 0 [] 0

/-- The Python return value `S, best_score` as the untyped pair it is:
first component the vertex list, second the score. -/
def SpecGreedyDyn {n : ℕ} (A P Q : Mat n) (U V : ℕ → Fin n → ℚ) (SIGMA : ℕ → ℚ)
    (k : ℕ) : (ℚ ⊕ List ℕ) × (ℚ ⊕ List ℕ) :=
  (Sum.inr (SpecGreedy A P Q U V SIGMA k).1, Sum.inl (SpecGreedy A P Q U V SIGMA k).2)

lemma specStep_snd_le {n : ℕ} (A P Q : Mat n) (U V : ℕ → Fin n → ℚ) (i : ℕ)
    (S : List ℕ) (best : ℚ) : best ≤ (specStep A P Q U V i S best).2 := by
  unfold specStep
  split
  · next hlt =>
    obtain ⟨q, hq, hlt'⟩ := WithBot.lt_iff_exists_coe.mp hlt
    rw [hq]
    simp only [WithBot.unbot'_coe]
    exact le_of_lt (WithBot.coe_lt_coe.mp hlt')
  · exact le_rfl

lemma specGoEarly_snd_le {n : ℕ} (A P Q : Mat n) (U V : ℕ → Fin n → ℚ)
    (SIGMA : ℕ → ℚ) (k rem : ℕ) :
    ∀ (i : ℕ) (S : List ℕ) (best : ℚ),
      best ≤ (specGoEarly A P Q U V SIGMA k rem i S best).2 := by
  induction rem with
  | zero => exact fun i S best => le_rfl
  | succ rem ih =>
    intro i S best
    unfold specGoEarly
    split
    · exact specStep_snd_le A P Q U V i S best
    · exact le_trans (specStep_snd_le A P Q U V i S best) (ih _ _ _)

/-- C2 counterexample: on a concrete one-vertex instance the Spectral
Candidate Generator returns `([0], 2)` — the vertex list FIRST and the best
score SECOND — so its result does not have the claimed
`(best_score, best_vertex_set)` shape. -/
theorem claim_C2_counterexample :
    SpecGreedyDyn zeroMat1 threeMat1 (idMat 1) (fun _ _ => 2) (fun _ _ => 2)
        (fun _ => 0) 1 = (Sum.inr [0], Sum.inl (3/2)) ∧
    ¬ ∃ (q : ℚ) (ns : List ℕ),
        SpecGreedyDyn zeroMat1 threeMat1 (idMat 1) (fun _ _ => 2) (fun _ _ => 2)
          (fun _ => 0) 1 = (Sum.inl q, Sum.inr ns) := by
  have h1 : SpecGreedyDyn zeroMat1 threeMat1 (idMat 1) (fun _ _ => 2) (fun _ _ => 2)
      (fun _ => 0) 1 = (Sum.inr [0], Sum.inl (3/2)) := by decide!
  refine ⟨h1, ?_⟩
  rintro ⟨q, ns, h⟩
  rw [h1] at h
  exact Sum.noConfusion (congrArg Prod.fst h)

/-- C2 amended: for every graph and every k, the Spectral Candidate
Generator's result has the shape `(best_vertex_set, best_score)` — the set
first and the score second — and the score is a real number `≥ 0` (the
initial `best_score = 0.0`, only ever raised). -/
theorem claim_C2_result_shape (n k : ℕ) (A P Q : Mat n) (U V : ℕ → Fin n → ℚ)
    (SIGMA : ℕ → ℚ) :
    ∃ (ns : List ℕ) (q : ℚ),
      SpecGreedyDyn A P Q U V SIGMA k = (Sum.inr ns, Sum.inl q) ∧
      q = (SpecGreedy A P Q U V SIGMA k).2 ∧ 0 ≤ q :=
  ⟨(SpecGreedy A P Q U V SIGMA k).1, (SpecGreedy A P Q U V SIGMA k).2, rfl, rfl,
    specGoEarly_snd_le A P Q U V SIGMA k k 0 [] 0⟩

/-- Concrete 2-vertex adjacency used in the C4 counterexample. -/
def cexA2 : Mat 2 := fun i j => if i = j then 0 else 2

/-- Concrete singular-vector columns used in the C4 counterexample:
column 0 selects vertex 0 only, column 1 selects both vertices. -/
def cexU2 : ℕ → Fin 2 → ℚ := fun i j => if i = 0 then (if j = 0 then 2 else 0) else 1

/-- C4 counterexample: with the break, the loop stops after candidate 0
(whose score 0 already reaches `σ[1] = 0`) and returns best score 0; the
full loop reaches candidate 1, whose induced subgraph is the whole graph
with greedy score 1. Early stopping returned a strictly lower best score. -/
theorem claim_C4_counterexample :
    SpecGreedy cexA2 cexA2 (idMat 2) cexU2 cexU2 (fun _ => 0) 2 = ([], 0) ∧
    SpecGreedyFull cexA2 cexA2 (idMat 2) cexU2 cexU2 2 = ([0, 1], 1) ∧
    (0 : ℚ) < 1 := by
  refine ⟨by decide!, by decide!, by norm_num⟩

lemma specStep_of_le {n : ℕ} (A P Q : Mat n) (U V : ℕ → Fin n → ℚ) (i : ℕ)
    (S : List ℕ) (best : ℚ) (h : candScore A P Q U V i ≤ (best : WithBot ℚ)) :
    specStep A P Q U V i S best = (S, best) := by
  unfold specStep
  rw [if_neg (not_lt.mpr h)]

lemma specGoFull_no_update {n : ℕ} (A P Q : Mat n) (U V : ℕ → Fin n → ℚ)
    (k rem : ℕ) :
    ∀ (i : ℕ) (S : List ℕ) (best : ℚ),
      (∀ j, i ≤ j → j < i + rem → candScore A P Q U V j ≤ (best : WithBot ℚ)) →
      specGoFull A P Q U V k rem i S best = (S, best) := by
  induction rem with
  | zero => exact fun i S best _ => rfl
  | succ rem ih =>
    intro i S best h
    unfold specGoFull
    rw [specStep_of_le A P Q U V i S best (h i le_rfl (by omega))]
    exact ih (i + 1) S best (fun j hj hlt => h j (by omega) (by omega))

/-- C4 amended: early termination is sound — it returns the same result as
the full loop — PROVIDED the singular values are non-increasing over the
processed range and each candidate's greedy score is bounded by its own
singular value (the property the spec asserts of the SVD); for arbitrary
`svds` output (which the code does not validate) the equivalence fails, see
the counterexample. -/
theorem claim_C4_early_termination (n k : ℕ) (A P Q : Mat n)
    (U V : ℕ → Fin n → ℚ) (SIGMA : ℕ → ℚ)
    (hmono : ∀ a b, a ≤ b → b < k → SIGMA b ≤ SIGMA a)
    (hbound : ∀ j, j < k → candScore A P Q U V j ≤ ((SIGMA j : ℚ) : WithBot ℚ)) :
    SpecGreedy A P Q U V SIGMA k = SpecGreedyFull A P Q U V k := by
  unfold SpecGreedy SpecGreedyFull
  have main : ∀ (rem i : ℕ) (S : List ℕ) (best : ℚ), i + rem = k →
      specGoEarly A P Q U V SIGMA k rem i S best =
        specGoFull A P Q U V k rem i S best := by
    intro rem
    induction rem with
    | zero => exact fun i S best _ => rfl
    | succ rem ih =>
      intro i S best hik
      unfold specGoEarly specGoFull
      split
      · next hbrk =>
        rw [specGoFull_no_update A P Q U V k rem (i + 1)
          (specStep A P Q U V i S best).1 (specStep A P Q U V i S best).2
          (fun j hj hlt => le_trans (hbound j (by omega))
            (le_trans (WithBot.coe_le_coe.mpr (hmono (i + 1) j hj (by omega)))
              (WithBot.coe_le_coe.mpr hbrk.2)))]
      · exact ih (i + 1) _ _ (by omega)
  exact main k 0 [] 0 (by omega)

theorem claim_C4_early_termination_witness :
    SpecGreedy zeroMat1 zeroMat1 zeroMat1 (fun _ _ => 2) (fun _ _ => 2)
        (fun _ => 5) 1 =
      SpecGreedyFull zeroMat1 zeroMat1 zeroMat1 (fun _ _ => 2) (fun _ _ => 2) 1 :=
  claim_C4_early_termination 1 1 zeroMat1 zeroMat1 zeroMat1 (fun _ _ => 2)
    (fun _ _ => 2) (fun _ => 5) (fun a b _ _ => le_refl 5)
    (fun j hj => by
      have hj0 : j = 0 := by omega
      subst hj0
      decide!)

lemma quadSum_idMat {n : ℕ} (S : Finset (Fin n)) :
    quadSum (idMat n) S = (S.card : ℚ) := by
  unfold quadSum idMat
  rw [Finset.sum_congr rfl (fun u _ => Finset.sum_ite_eq S u (fun _ => (1 : ℚ)))]
  rw [Finset.sum_congr rfl (fun u hu => if_pos hu), Finset.sum_const,
    nsmul_eq_mul, mul_one]

lemma quadSum_insert {n : ℕ} (A : Mat n) (hsymm : ∀ u v, A u v = A v u)
    (hdiag : ∀ u, A u u = 0) {T : Finset (Fin n)} {v : Fin n} (hvT : v ∉ T) :
    quadSum A (insert v T) = quadSum A T + 2 * ∑ u ∈ T, A v u := by
  unfold quadSum
  rw [Finset.sum_insert hvT, Finset.sum_insert hvT,
    Finset.sum_congr rfl (fun u (_ : u ∈ T) => Finset.sum_insert hvT),
    Finset.sum_add_distrib, hdiag v,
    Finset.sum_congr rfl (fun u (_ : u ∈ T) => hsymm u v)]
  ring

lemma quadSum_erase {n : ℕ} (A : Mat n) (hsymm : ∀ u v, A u v = A v u)
    (hdiag : ∀ u, A u u = 0) {S : Finset (Fin n)} {v : Fin n} (hv : v ∈ S) :
    quadSum A (S.erase v) = quadSum A S - 2 * ∑ u ∈ S.erase v, A v u := by
  have h := quadSum_insert A hsymm hdiag (Finset.not_mem_erase v S)
  rw [Finset.insert_erase hv] at h
  linarith

lemma charikarGo_eq_greedyGo {n : ℕ} (A : Mat n) (hsymm : ∀ u v, A u v = A v u)
    (hdiag : ∀ u, A u u = 0) (fuel : ℕ) :
    ∀ (S : Finset (Fin n)) (d : Fin n → ℚ) (W : ℚ)
      (acc : WithBot ℚ × Finset (Fin n)), W = quadSum A S / 2 →
      (charikarGo A fuel S d W acc).bestScore =
        (greedyGo A A (idMat n) fuel S d acc).bestScore := by
  induction fuel with
  | zero => intro S d W acc _; rfl
  | succ fuel ih =>
    intro S d W acc hW
    unfold charikarGo greedyGo
    dsimp only
    by_cases hS : S.Nonempty
    · rw [dif_pos hS, dif_pos hS]
      dsimp only
      have hcard : (0 : ℚ) < (S.card : ℚ) := by
        exact_mod_cast Finset.card_pos.mpr hS
      have hacc : (if acc.1 < ((W / (S.card : ℚ) : ℚ) : WithBot ℚ)
            then (((W / (S.card : ℚ) : ℚ) : WithBot ℚ), S) else acc) =
          scoreUpdate A (idMat n) S acc := by
        have hval : (W / (S.card : ℚ) : ℚ) =
            1/2 * quadSum A S / quadSum (idMat n) S := by
          rw [quadSum_idMat, hW]
          ring
        unfold scoreUpdate
        rw [← hval, quadSum_idMat]
        simp only [hcard, true_and]
      rw [hacc]
      have hd : (fun u => if u ∈ S ∧ A (popMin S d hS) u ≠ 0
            then d u - A (popMin S d hS) u else d u) =
          (fun u => if u ∈ S.erase (popMin S d hS)
            then d u - A (popMin S d hS) u else d u) := by
        funext u
        by_cases huv : u = popMin S d hS
        · subst huv
          simp [hdiag]
        · by_cases huS : u ∈ S
          · by_cases hA : A (popMin S d hS) u = 0
            · simp [huS, hA, Finset.mem_erase, huv]
            · simp [huS, hA, Finset.mem_erase, huv]
          · simp [huS, Finset.mem_erase, huv]
      rw [hd]
      refine ih (S.erase (popMin S d hS)) _ _ _ ?_
      rw [quadSum_erase A hsymm hdiag (popMin_mem S d hS),
        Finset.sum_filter_ne_zero S]
      have hsum : ∑ u ∈ S, A (popMin S d hS) u =
          ∑ u ∈ S.erase (popMin S d hS), A (popMin S d hS) u := by
        rw [← Finset.add_sum_erase S _ (popMin_mem S d hS), hdiag, zero_add]
      rw [hsum, hW]
      ring
    · rw [dif_neg hS, dif_neg hS]

/-- C10: on an undirected weighted graph without self-loops (symmetric
adjacency, zero diagonal), the specialized Charikar implementation —
maintaining a running total edge weight scored as `weight / |S|` — returns
the same best score as the generic peeling engine called as
`greedy(A, A, I)` scoring `0.5·xᵀAx / xᵀIx`, since both peel in the same
lazy min-degree order. -/
theorem claim_C10_charikar_equals_greedy (n : ℕ) (A : Mat n)
    (hsymm : ∀ u v, A u v = A v u) (hdiag : ∀ u, A u u = 0) :
    (charikar A).bestScore = (greedy A A (idMat n)).bestScore := by
  unfold charikar greedy
  exact charikarGo_eq_greedyGo A hsymm hdiag (n + 1) Finset.univ
    (fun v => ∑ u, A v u) _ (⊥, Finset.univ) rfl

theorem claim_C10_charikar_equals_greedy_witness :
    (charikar (adjOfEdges 2 [(0, 1, 1)])).bestScore =
      (greedy (adjOfEdges 2 [(0, 1, 1)]) (adjOfEdges 2 [(0, 1, 1)])
        (idMat 2)).bestScore :=
  claim_C10_charikar_equals_greedy 2 (adjOfEdges 2 [(0, 1, 1)])
    (by decide!) (by decide!)

end SpecGreedyRepro
